import Mathlib

/-!
# Verification of the `lazy-mt` thunk (multi-threaded lazy evaluation cell)

Shallow embedding of `src/lib.rs`. The Rust `Thunk<E, V>` is an
`RwLock<Inner<E, V>>`; in a sequential embedding the lock is transparent and a
thunk is identified with the `Inner` state it protects. The `Evaluate` trait's
single method `evaluate : E -> V` (consume self, produce a value) is a function
parameter `evaluate : E → V`.

Operations (`force`, `Deref::deref`, `DerefMut::deref_mut`) are modelled as
state transformers that additionally report

* `evals`  — how many times the evaluator was invoked during the operation,
* `trace`  — the successive contents of the lock-protected cell during the
  operation (first element: state on entry; last element: state on return),

and return `Option` results, `none` modelling the `unreachable!()` branches.
-/

namespace LazyMT

/-- The `Inner<E, V>` enum of the source: the thunk's state. -/
inductive Inner (E V : Type) where
  | Unevaluated : E → Inner E V
  | Evaluating : Inner E V
  | Value : V → Inner E V
deriving DecidableEq, Repr

variable {E V : Type}

/-- `Thunk::new(e)`: wrap the evaluator, state `Unevaluated(e)`. -/
def new (e : E) : Inner E V := Inner.Unevaluated e

/-- `Thunk::evaluated(val)`: wrap a value directly, state `Value(val)`. -/
def evaluated (v : V) : Inner E V := Inner.Value v

/-- The pattern test `if let Value(_) = *self.0.read().unwrap()` of `force`. -/
def isValue : Inner E V → Bool
  | Inner.Value _ => true
  | _ => false

/-- Outcome of one operation on the cell: resulting state, number of evaluator
invocations, and the successive states the cell held during the operation. -/
structure OpResult (E V : Type) where
  state : Inner E V
  evals : Nat
  trace : List (Inner E V)
deriving DecidableEq, Repr

variable (evaluate : E → V)

/-- `Thunk::force`: fast path returns if the state is already `Value`;
otherwise the write phase `mem::replace`s the state with `Evaluating` and
matches on the previous state, evaluating `Unevaluated(e)`, restoring
`Value(v)`, and hitting `unreachable!()` (here: `none`) on `Evaluating`. -/
def force (s : Inner E V) : Option (OpResult E V) :=
  if isValue s then
    some ⟨s, 0, [s]⟩
  else
    match s with
    | Inner.Unevaluated e =>
        some ⟨Inner.Value (evaluate e), 1,
              [s, Inner.Evaluating, Inner.Value (evaluate e)]⟩
    | Inner.Value v =>
        some ⟨Inner.Value v, 0, [s, Inner.Evaluating, Inner.Value v]⟩
    | Inner.Evaluating => none

/-- `Deref::deref`: `force`, then read the contained value under the read
lock; any state other than `Value` is `unreachable!()` (here: `none`).
Returns the value observed and the operation outcome. -/
def deref (s : Inner E V) : Option (V × OpResult E V) :=
  match force evaluate s with
  | none => none
  | some r =>
    match r.state with
    | Inner.Value val => some (val, r)
    | _ => none

/-- `DerefMut::deref_mut`: `force`, then hand out a mutable reference to the
contained value under the write lock; any state other than `Value` is
`unreachable!()` (here: `none`). The caller may overwrite the referent
through the returned `&mut V`; `f` is the update the caller performs before
dropping the reference (take `f = id` for a deref_mut with no write).
Returns the value the reference pointed at and the operation outcome. -/
def deref_mut (f : V → V) (s : Inner E V) : Option (V × OpResult E V) :=
  match force evaluate s with
  | none => none
  | some r =>
    match r.state with
    | Inner.Value val =>
        some (val, ⟨Inner.Value (f val), r.evals, r.trace ++ [Inner.Value (f val)]⟩)
    | _ => none

/-- A public operation on a thunk: `force`, read access, or mutable access
(with the update `f` the caller writes through the mutable reference). -/
inductive Op (V : Type) where
  | Force : Op V
  | Deref : Op V
  | DerefMut : (V → V) → Op V

/-- One operation as a state transformer. -/
def step (s : Inner E V) : Op V → Option (OpResult E V)
  | Op.Force => force evaluate s
  | Op.Deref => (deref evaluate s).map Prod.snd
  | Op.DerefMut f => (deref_mut evaluate f s).map Prod.snd

/-- Run a sequence of operations, collecting the evaluator-invocation count of
each; `none` as soon as one operation hits an `unreachable!()`. -/
def runEvals (s : Inner E V) : List (Op V) → Option (Inner E V × List Nat)
  | [] => some (s, [])
  | op :: ops =>
    match step evaluate s op with
    | none => none
    | some r =>
      match runEvals r.state ops with
      | none => none
      | some (t, cs) => some (t, r.evals :: cs)

/-- The transitions the state machine allows between successive cell contents:
`Unevaluated → Evaluating`, `Evaluating → Value`, and staying in `Value`
(the variant does not change; mutable access may change the payload). -/
def okTrans : Inner E V → Inner E V → Prop
  | Inner.Unevaluated _, Inner.Evaluating => True
  | Inner.Evaluating, Inner.Value _ => True
  | Inner.Value _, Inner.Value _ => True
  | _, _ => False

/-- States reachable from the public constructors by public operations. -/
inductive Reachable : Inner E V → Prop where
  | of_new : ∀ e : E, Reachable (new e)
  | of_evaluated : ∀ v : V, Reachable (evaluated v)
  | of_step : ∀ (s : Inner E V) (op : Op V) (r : OpResult E V),
      Reachable s → step evaluate s op = some r → Reachable r.state

/-! ## Basic computation lemmas -/

lemma force_unevaluated (e : E) :
    force evaluate (Inner.Unevaluated e) =
      some ⟨Inner.Value (evaluate e), 1,
            [Inner.Unevaluated e, Inner.Evaluating, Inner.Value (evaluate e)]⟩ := rfl

lemma force_value (v : V) :
    force evaluate (Inner.Value v) = some ⟨Inner.Value v, 0, [Inner.Value v]⟩ := rfl

lemma force_evaluating : force evaluate (Inner.Evaluating : Inner E V) = none := rfl

/-- A successful `force` always ends in a `Value` state. -/
lemma force_state_isValue {s : Inner E V} {r : OpResult E V}
    (h : force evaluate s = some r) : ∃ w, r.state = Inner.Value w := by
  cases s with
  | Unevaluated e =>
      rw [force_unevaluated] at h
      exact ⟨evaluate e, by simp [← Option.some_inj.mp h]⟩
  | Evaluating => rw [force_evaluating] at h; exact absurd h (by simp)
  | Value v =>
      rw [force_value] at h
      exact ⟨v, by simp [← Option.some_inj.mp h]⟩

lemma step_value_force (v : V) :
    step evaluate (Inner.Value v) Op.Force =
      some ⟨Inner.Value v, 0, [Inner.Value v]⟩ := rfl

lemma step_value_deref (v : V) :
    step evaluate (Inner.Value v) Op.Deref =
      some ⟨Inner.Value v, 0, [Inner.Value v]⟩ := rfl

lemma step_value_deref_mut (v : V) (f : V → V) :
    step evaluate (Inner.Value v) (Op.DerefMut f) =
      some ⟨Inner.Value (f v), 0, [Inner.Value v, Inner.Value (f v)]⟩ := rfl

lemma step_unev_force (e : E) :
    step evaluate (Inner.Unevaluated e) Op.Force =
      some ⟨Inner.Value (evaluate e), 1,
            [Inner.Unevaluated e, Inner.Evaluating, Inner.Value (evaluate e)]⟩ := rfl

lemma step_unev_deref (e : E) :
    step evaluate (Inner.Unevaluated e) Op.Deref =
      some ⟨Inner.Value (evaluate e), 1,
            [Inner.Unevaluated e, Inner.Evaluating, Inner.Value (evaluate e)]⟩ := rfl

lemma step_unev_deref_mut (e : E) (f : V → V) :
    step evaluate (Inner.Unevaluated e) (Op.DerefMut f) =
      some ⟨Inner.Value (f (evaluate e)), 1,
            [Inner.Unevaluated e, Inner.Evaluating, Inner.Value (evaluate e),
             Inner.Value (f (evaluate e))]⟩ := rfl

/-- On a `Value` state any operation succeeds, invokes the evaluator zero
times, and ends in a `Value` state. -/
lemma step_value (v : V) (op : Op V) :
    ∃ w tr, step evaluate (Inner.Value v) op = some ⟨Inner.Value w, 0, tr⟩ := by
  cases op with
  | Force => exact ⟨v, _, step_value_force evaluate v⟩
  | Deref => exact ⟨v, _, step_value_deref evaluate v⟩
  | DerefMut f => exact ⟨f v, _, step_value_deref_mut evaluate v f⟩

/-- On an `Unevaluated` state any operation succeeds, invokes the evaluator
exactly once, and ends in a `Value` state. -/
lemma step_unevaluated (e : E) (op : Op V) :
    ∃ w tr, step evaluate (Inner.Unevaluated e) op = some ⟨Inner.Value w, 1, tr⟩ := by
  cases op with
  | Force => exact ⟨evaluate e, _, step_unev_force evaluate e⟩
  | Deref => exact ⟨evaluate e, _, step_unev_deref evaluate e⟩
  | DerefMut f => exact ⟨f (evaluate e), _, step_unev_deref_mut evaluate e f⟩

/-- Inversion for a successful read access: the underlying `force` succeeded,
the state it reached is `Value v`, and that is the operation's outcome. -/
lemma deref_eq_some {s : Inner E V} {v : V} {r : OpResult E V}
    (h : deref evaluate s = some (v, r)) :
    force evaluate s = some r ∧ r.state = Inner.Value v := by
  unfold deref at h
  cases hf : force evaluate s with
  | none => rw [hf] at h; exact absurd h (by simp)
  | some r₁ =>
      rw [hf] at h
      obtain ⟨st, ev, tr⟩ := r₁
      cases st with
      | Unevaluated e => exact absurd h (by simp)
      | Evaluating => exact absurd h (by simp)
      | Value w =>
          simp only [Option.some_inj, Prod.mk.injEq] at h
          obtain ⟨rfl, rfl⟩ := h
          exact ⟨rfl, rfl⟩

/-- Inversion for a successful mutable access: the underlying `force`
succeeded reaching `Value v`, and the outcome stores `Value (f v)`. -/
lemma deref_mut_eq_some {s : Inner E V} {f : V → V} {v : V} {r : OpResult E V}
    (h : deref_mut evaluate f s = some (v, r)) :
    ∃ r₀ : OpResult E V, force evaluate s = some r₀ ∧ r₀.state = Inner.Value v ∧
      r = ⟨Inner.Value (f v), r₀.evals, r₀.trace ++ [Inner.Value (f v)]⟩ := by
  unfold deref_mut at h
  cases hf : force evaluate s with
  | none => rw [hf] at h; exact absurd h (by simp)
  | some r₁ =>
      rw [hf] at h
      obtain ⟨st, ev, tr⟩ := r₁
      cases st with
      | Unevaluated e => exact absurd h (by simp)
      | Evaluating => exact absurd h (by simp)
      | Value w =>
          simp only [Option.some_inj, Prod.mk.injEq] at h
          obtain ⟨rfl, rfl⟩ := h
          exact ⟨_, rfl, rfl, rfl⟩

/-- A successful operation always ends in a `Value` state. -/
lemma step_state_isValue {s : Inner E V} {op : Op V} {r : OpResult E V}
    (h : step evaluate s op = some r) : ∃ w, r.state = Inner.Value w := by
  cases op with
  | Force => exact force_state_isValue evaluate h
  | Deref =>
      simp only [step] at h
      cases hd : deref evaluate s with
      | none => rw [hd] at h; exact absurd h (by simp)
      | some p =>
          rw [hd] at h
          have hr : p.2 = r := by simpa using h
          obtain ⟨-, hst⟩ := deref_eq_some evaluate (v := p.1) (r := p.2) (by rw [hd])
          exact ⟨p.1, by rw [← hr, hst]⟩
  | DerefMut f =>
      simp only [step] at h
      cases hd : deref_mut evaluate f s with
      | none => rw [hd] at h; exact absurd h (by simp)
      | some p =>
          rw [hd] at h
          have hr : p.2 = r := by simpa using h
          obtain ⟨r₀, -, -, hp⟩ := deref_mut_eq_some evaluate (v := p.1) (r := p.2) (by rw [hd])
          exact ⟨f p.1, by rw [← hr, hp]⟩

/-- Running any operation sequence from a `Value` state succeeds, stays in a
`Value` state and never invokes the evaluator. -/
lemma runEvals_value (ops : List (Op V)) : ∀ v : V,
    ∃ w cs, runEvals evaluate (Inner.Value v) ops = some (Inner.Value w, cs) ∧
      ∀ c ∈ cs, c = 0 := by
  induction ops with
  | nil => exact fun v => ⟨v, [], rfl, by simp⟩
  | cons op ops ih =>
      intro v
      obtain ⟨w, tr, hstep⟩ := step_value evaluate v op
      obtain ⟨w₂, cs, hrun, hcs⟩ := ih w
      refine ⟨w₂, 0 :: cs, ?_, by simpa using hcs⟩
      simp only [runEvals, hstep, hrun]

/-- Reachable states are never `Evaluating`. -/
lemma reachable_ne_evaluating {s : Inner E V} (h : Reachable evaluate s) :
    s ≠ Inner.Evaluating := by
  induction h with
  | of_new e => simp [new]
  | of_evaluated v => simp [evaluated]
  | of_step s op r _ hstep _ =>
      obtain ⟨w, hw⟩ := step_state_isValue evaluate hstep
      simp [hw]

/-! ## Claim theorems -/

/-- Claim C1: Compute-once. A thunk constructed with `new e` performs no
evaluation at construction (it merely stores the evaluator in state
`Unevaluated e`), and across any nonempty sequence of `force`, read-access
and mutable-access operations, the evaluator is invoked exactly once, namely
by the first operation; every later operation invokes it zero times. -/
theorem c1_compute_once (e : E) (op : Op V) (ops : List (Op V)) :
    new (V := V) e = Inner.Unevaluated e ∧
    ∃ t cs, runEvals evaluate (new e) (op :: ops) = some (t, 1 :: cs) ∧
      ∀ c ∈ cs, c = 0 := by
  refine ⟨rfl, ?_⟩
  obtain ⟨w, tr, hstep⟩ := step_unevaluated evaluate e op
  obtain ⟨w₂, cs, hrun, hcs⟩ := runEvals_value evaluate ops w
  refine ⟨Inner.Value w₂, cs, ?_, hcs⟩
  simp only [runEvals, new, hstep, hrun]

/-- Claim C2: Postcondition of `force`. From state `Unevaluated e` the call
succeeds and leaves state `Value (evaluate e)` (the stored value is exactly
the evaluator's result); from state `Value v` it succeeds and leaves the
identical `Value v`. -/
theorem c2_force_postcondition (e : E) (v : V) :
    (∃ tr, force evaluate (Inner.Unevaluated e) =
      some ⟨Inner.Value (evaluate e), 1, tr⟩) ∧
    (∃ tr, force evaluate (Inner.Value v) = some ⟨Inner.Value v, 0, tr⟩) :=
  ⟨⟨_, force_unevaluated evaluate e⟩, ⟨_, force_value evaluate v⟩⟩

/-- Claim C3: Write-once state machine. On every reachable state, every
successful operation's trace of cell contents only ever steps
`Unevaluated → Evaluating`, `Evaluating → Value`, or stays in `Value`;
in particular once the state is `Value` it never returns to `Unevaluated`
or `Evaluating`. -/
theorem c3_write_once (s : Inner E V) (op : Op V) (r : OpResult E V)
    (hs : Reachable evaluate s) (h : step evaluate s op = some r) :
    List.Chain' okTrans r.trace := by
  have hne := reachable_ne_evaluating evaluate hs
  cases s with
  | Evaluating => exact absurd rfl hne
  | Unevaluated e =>
      cases op with
      | Force =>
          rw [step_unev_force] at h
          cases h
          simp [okTrans, List.chain'_cons]
      | Deref =>
          rw [step_unev_deref] at h
          cases h
          simp [okTrans, List.chain'_cons]
      | DerefMut f =>
          rw [step_unev_deref_mut] at h
          cases h
          simp [okTrans, List.chain'_cons]
  | Value v =>
      cases op with
      | Force =>
          rw [step_value_force] at h
          cases h
          simp [okTrans, List.chain'_cons]
      | Deref =>
          rw [step_value_deref] at h
          cases h
          simp [okTrans, List.chain'_cons]
      | DerefMut f =>
          rw [step_value_deref_mut] at h
          cases h
          simp [okTrans, List.chain'_cons]

/-- Witness for C3 at a concrete thunk: forcing `new ()` with evaluator
`fun _ => 7` produces the trace `Unevaluated → Evaluating → Value 7`,
which respects the transition discipline. -/
theorem c3_write_once_witness :
    List.Chain' okTrans
      [Inner.Unevaluated (), Inner.Evaluating, Inner.Value (7 : Nat)] :=
  c3_write_once (fun _ : Unit => 7) (new ()) Op.Force
    ⟨Inner.Value 7, 1, [Inner.Unevaluated (), Inner.Evaluating, Inner.Value 7]⟩
    (Reachable.of_new ()) rfl

/-- Claim C4: Idempotence of `force`. After one call to `force` has
completed, a further `force` is a no-op (same state, zero evaluator
invocations), and so is any number `n` of further calls. -/
theorem c4_force_idempotent (s : Inner E V) (r : OpResult E V) (n : Nat)
    (h : force evaluate s = some r) :
    force evaluate r.state = some ⟨r.state, 0, [r.state]⟩ ∧
    runEvals evaluate r.state (List.replicate n Op.Force) =
      some (r.state, List.replicate n 0) := by
  obtain ⟨w, hw⟩ := force_state_isValue evaluate h
  rw [hw]
  refine ⟨force_value evaluate w, ?_⟩
  induction n with
  | zero => rfl
  | succ n ih =>
      simp only [List.replicate_succ, runEvals, step_value_force, ih]

/-- Witness for C4: after forcing `new ()` (evaluator `fun _ => 7`), two
further calls to `force` leave the state `Value 7` and run no evaluation. -/
theorem c4_force_idempotent_witness :
    force (fun _ : Unit => 7) (Inner.Value 7) =
      some ⟨Inner.Value 7, 0, [Inner.Value 7]⟩ ∧
    runEvals (fun _ : Unit => 7) (Inner.Value 7) (List.replicate 2 Op.Force) =
      some (Inner.Value 7, List.replicate 2 0) :=
  c4_force_idempotent (fun _ : Unit => 7) (new ()) _ 2 rfl

/-- Claim C5: Read-through correctness. Dereferencing a thunk constructed
with `new e` returns exactly the evaluator's result `evaluate e`. -/
theorem c5_read_through (e : E) :
    ∃ r, deref evaluate (new e) = some (evaluate e, r) := ⟨_, rfl⟩

/-- Claim C6: Pre-evaluated equivalence. If `evaluate e = v` then forcing
`new e` reaches exactly the state `evaluated v`, so from then on every
operation behaves identically on the two thunks; and on `evaluated v`
every operation sequence succeeds and never invokes an evaluator. -/
theorem c6_pre_evaluated_equiv (e : E) (v : V) (h : evaluate e = v) :
    (∃ r, force evaluate (new e) = some r ∧ r.state = evaluated v ∧
      ∀ op : Op V, step evaluate r.state op = step evaluate (evaluated v) op) ∧
    ∀ ops : List (Op V), ∃ w cs,
      runEvals evaluate (evaluated v) ops = some (Inner.Value w, cs) ∧
        ∀ c ∈ cs, c = 0 := by
  subst h
  exact ⟨⟨_, force_unevaluated evaluate e, rfl, fun op => rfl⟩,
    fun ops => runEvals_value evaluate ops _⟩

/-- Witness for C6 with evaluator `fun _ => 7` and value `7`. -/
theorem c6_pre_evaluated_equiv_witness :
    (∃ r, force (fun _ : Unit => 7) (new ()) = some r ∧
      r.state = evaluated 7 ∧
      ∀ op : Op Nat, step (fun _ : Unit => 7) r.state op =
        step (fun _ : Unit => 7) (evaluated 7) op) ∧
    ∀ ops : List (Op Nat), ∃ w cs,
      runEvals (fun _ : Unit => 7) (evaluated 7) ops =
        some (Inner.Value w, cs) ∧ ∀ c ∈ cs, c = 0 :=
  c6_pre_evaluated_equiv (fun _ : Unit => 7) () 7 rfl

/-- Claim C7: Write-through then read-through. After forcing a thunk, a
mutable access that writes `f` through the returned reference leaves the
state `Value (f v)`, and a subsequent read access returns the mutated value
`f v`; neither access invokes the evaluator (both report zero
invocations). -/
theorem c7_write_then_read (s : Inner E V) (r : OpResult E V) (f : V → V)
    (h : force evaluate s = some r) :
    ∃ v, r.state = Inner.Value v ∧
      deref_mut evaluate f r.state =
        some (v, ⟨Inner.Value (f v), 0, [Inner.Value v, Inner.Value (f v)]⟩) ∧
      deref evaluate (Inner.Value (f v)) =
        some (f v, ⟨Inner.Value (f v), 0, [Inner.Value (f v)]⟩) := by
  obtain ⟨v, hv⟩ := force_state_isValue evaluate h
  refine ⟨v, hv, ?_, rfl⟩
  rw [hv]
  exact rfl

/-- Witness for C7: force `new ()` (evaluator `fun _ => 7`), add one through
the mutable reference, then read `8` back with no evaluation. -/
theorem c7_write_then_read_witness :
    ∃ v : Nat, (Inner.Value 7 : Inner Unit Nat) = Inner.Value v ∧
      deref_mut (fun _ : Unit => 7) (fun x => x + 1) (Inner.Value 7) =
        some (v, ⟨Inner.Value (v + 1), 0, [Inner.Value v, Inner.Value (v + 1)]⟩) ∧
      deref (fun _ : Unit => 7) (Inner.Value (v + 1)) =
        some (v + 1, ⟨Inner.Value (v + 1), 0, [Inner.Value (v + 1)]⟩) :=
  c7_write_then_read (fun _ : Unit => 7) (new ()) _ (fun x => x + 1) rfl

/-- Claim C8: Unreachable branch in `force`. On every reachable state, if the
read-phase check fails (state not `Value`) the state entering the write phase
is `Unevaluated`, never `Evaluating`; consequently `force` succeeds and its
`unreachable` branch is not executed. -/
theorem c8_force_no_unreachable (s : Inner E V) (hs : Reachable evaluate s) :
    (isValue s = false → ∃ e, s = Inner.Unevaluated e) ∧
    (force evaluate s).isSome := by
  have hne := reachable_ne_evaluating evaluate hs
  cases s with
  | Evaluating => exact absurd rfl hne
  | Unevaluated e => exact ⟨fun _ => ⟨e, rfl⟩, by rw [force_unevaluated]; rfl⟩
  | Value v => exact ⟨fun hc => by simp [isValue] at hc, by rw [force_value]; rfl⟩

/-- Witness for C8 at the reachable state `new ()`. -/
theorem c8_force_no_unreachable_witness :
    (isValue (new (V := Nat) ()) = false →
      ∃ e : Unit, new (V := Nat) () = Inner.Unevaluated e) ∧
    (force (fun _ : Unit => 7) (new ())).isSome :=
  c8_force_no_unreachable (fun _ : Unit => 7) (new ()) (Reachable.of_new ())

/-- Claim C9: Accessors never expose intermediate states. On every reachable
state, read access and mutable access both succeed — their internal `force`
leaves a `Value` state, a reference into that value is returned, and the
`unreachable` branches of both accessors are not executed. -/
theorem c9_accessors_safe (s : Inner E V) (f : V → V) (hs : Reachable evaluate s) :
    (∃ v r, deref evaluate s = some (v, r) ∧ r.state = Inner.Value v) ∧
    (∃ v r, deref_mut evaluate f s = some (v, r) ∧ r.state = Inner.Value (f v)) := by
  have hne := reachable_ne_evaluating evaluate hs
  cases s with
  | Evaluating => exact absurd rfl hne
  | Unevaluated e => exact ⟨⟨evaluate e, _, rfl, rfl⟩, ⟨evaluate e, _, rfl, rfl⟩⟩
  | Value v => exact ⟨⟨v, _, rfl, rfl⟩, ⟨v, _, rfl, rfl⟩⟩

/-- Witness for C9 at the reachable state `evaluated 5`. -/
theorem c9_accessors_safe_witness :
    (∃ v r, deref (fun _ : Unit => 7) (evaluated 5) = some (v, r) ∧
      r.state = Inner.Value v) ∧
    (∃ v r, deref_mut (fun _ : Unit => 7) (fun x => x * 2) (evaluated 5) =
      some (v, r) ∧ r.state = Inner.Value (v * 2)) :=
  c9_accessors_safe (fun _ : Unit => 7) (evaluated 5) (fun x => x * 2)
    (Reachable.of_evaluated 5)

/-- Claim C10: After any successful mutable access that writes `f` through
the reference, the state remains `Value` (holding the mutated value `f v`,
with the evaluator consumed and gone from the state); a subsequent `force`
or read access leaves that value unchanged, and no operation sequence from
this state can ever invoke an evaluator again. -/
theorem c10_mut_keeps_value (s : Inner E V) (f : V → V) (v : V)
    (r : OpResult E V) (h : deref_mut evaluate f s = some (v, r)) :
    r.state = Inner.Value (f v) ∧
    force evaluate r.state = some ⟨r.state, 0, [r.state]⟩ ∧
    deref evaluate r.state = some (f v, ⟨r.state, 0, [r.state]⟩) ∧
    ∀ ops : List (Op V), ∃ w cs,
      runEvals evaluate r.state ops = some (Inner.Value w, cs) ∧
        ∀ c ∈ cs, c = 0 := by
  obtain ⟨r₀, -, -, hr⟩ := deref_mut_eq_some evaluate h
  rw [hr]
  exact ⟨rfl, force_value evaluate _, rfl, fun ops => runEvals_value evaluate ops _⟩

/-- Witness for C10: mutable access on `evaluated 3` writing `x + 1` leaves
`Value 4`; force and read preserve it and no evaluator can ever run. -/
theorem c10_mut_keeps_value_witness :
    (Inner.Value 4 : Inner Unit Nat) = Inner.Value 4 ∧
    force (fun _ : Unit => 7) (Inner.Value 4) =
      some ⟨Inner.Value 4, 0, [Inner.Value 4]⟩ ∧
    deref (fun _ : Unit => 7) (Inner.Value 4) =
      some (4, ⟨Inner.Value 4, 0, [Inner.Value 4]⟩) ∧
    ∀ ops : List (Op Nat), ∃ w cs,
      runEvals (fun _ : Unit => 7) (Inner.Value 4) ops =
        some (Inner.Value w, cs) ∧ ∀ c ∈ cs, c = 0 :=
  c10_mut_keeps_value (fun _ : Unit => 7) (evaluated 3) (fun x => x + 1) 3 _ rfl

end LazyMT
